import Mathlib

/-!
Verification of the transition-matrix estimator
(src/Risco_de_Credito/transition_matrix_estimator.py).

Matrices are embedded as lists of rows of rationals; counts are exact, so the
floating-tolerance statements of the specification become exact equalities.
The four in-place numpy updates of a rebin merge, the keep-mask reduction of
the drop strategy, the per-row Laplace smoothing, the searchsorted bucket
lookup (including the negative-index wraparound of numpy indexing) and the
selector logic of get_matrix are all translated statement by statement.
-/

namespace TM

/-- One row of the merged panel used by fit: raw origin bucket value, raw
destination bucket value, and the optional group label of the origin side. -/
abbrev Row := ℤ × ℤ × Option String

/-- Configuration of TransitionMatrixLearner as stored by the constructor. -/
structure Learner where
  buckets : List ℤ
  alpha : ℚ
  auto_rebin : Bool
  drop_empty : Bool
  min_count : ℤ
  rebin_window : ℤ

/-- Cell (i, j) of a list-of-lists matrix, 0 outside the stored cells. -/
def matGet (m : List (List ℚ)) (i j : Nat) : ℚ := (m.getD i []).getD j 0

/-- Sum of all cells of a matrix. -/
def totalSum (m : List (List ℚ)) : ℚ := (m.map List.sum).sum

/-- Embedding of np.searchsorted(buckets, v, side=right) - 1 on the sorted
bucket list: for a sorted list the right-biased search returns the number of
thresholds that are at most v, so locate is that count minus one. -/
def locate (bk : List ℤ) (v : ℤ) : ℤ :=
  (bk.countP (fun b => decide (b ≤ v)) : ℤ) - 1

/-- Effective numpy row index: a negative index wraps by adding the length. -/
def effIndex (n : Nat) (i : ℤ) : ℤ := if i < 0 then i + (n : ℤ) else i

/-- The all-zero n by n matrix, np.zeros((n, n)). -/
def zerosMat (n : Nat) : List (List ℚ) := List.replicate n (List.replicate n 0)

/-- In-place increment mat[i, j] += 1. -/
def bump (m : List (List ℚ)) (i j : Nat) : List (List ℚ) :=
  m.set i ((m.getD i []).set j ((m.getD i []).getD j 0 + 1))

/-- Embedding of the loop body of count_matrix over the (origin, destination)
raw values: each value is located in the bucket list and the matching cell is
incremented, negative locate results wrapping as numpy indices do. -/
def count_matrix (L : Learner) (ps : List (ℤ × ℤ)) : List (List ℚ) :=
  ps.foldl
    (fun m p =>
      bump m (effIndex L.buckets.length (locate L.buckets p.1)).toNat
             (effIndex L.buckets.length (locate L.buckets p.2)).toNat)
    (zerosMat L.buckets.length)

/-- Label distance between bucket positions x and i. -/
def bucketDist (bk : List ℤ) (x i : Nat) : ℤ := |bk.getD x 0 - bk.getD i 0|

/-- Python min(xs, key=f) over the nonempty list x :: xs: the first element
attaining the minimal key. -/
def pyMinKey (f : Nat → ℤ) (x : Nat) (xs : List Nat) : Nat :=
  xs.foldl (fun b y => if f y < f b then y else b) x

/-- The four in-place numpy updates of one rebin merge in source order:
mat[j] += mat[i]; mat[:, j] += mat[:, i]; mat[i] = 0; mat[:, i] = 0. -/
def mergeRowsCols (m : List (List ℚ)) (i j : Nat) : List (List ℚ) :=
  let m1 := m.set j (List.zipWith (fun a b => a + b) (m.getD j []) (m.getD i []))
  let m2 := m1.map (fun r => r.set j (r.getD j 0 + r.getD i 0))
  let m3 := m2.set i (List.replicate (m2.getD i []).length 0)
  m3.map (fun r => r.set i 0)

/-- Rebin donor choice for sparse row i: candidates within the window, falling
back to the whole non-empty list when none, then Python min by label distance. -/
def chooseDonor (L : Learner) (ne : List Nat) (i : Nat) : Nat :=
  let cands0 := ne.filter (fun c => decide (bucketDist L.buckets c i ≤ L.rebin_window))
  match (if cands0 = [] then ne else cands0) with
  | [] => 0
  | c :: cs => pyMinKey (fun x => bucketDist L.buckets x i) c cs

/-- Body of the rebin loop at row index i, acting on (matrix, row_sums); ne is
the non_empty list computed once before the loop. -/
def rebinStep (L : Learner) (ne : List Nat) (st : List (List ℚ) × List ℚ) (i : Nat) :
    List (List ℚ) × List ℚ :=
  let s := st.2.getD i 0
  if s < (L.min_count : ℚ) then
    if ne = [] then st
    else
      let j := chooseDonor L ne i
      (mergeRowsCols st.1 i j, (st.2.set j (st.2.getD j 0 + s)).set i 0)
  else st

/-- Rows whose initial total reaches min_count, computed once before the rebin
loop (non_empty in the source). -/
def rebinNE (L : Learner) (mat : List (List ℚ)) : List Nat :=
  (List.range mat.length).filter
    (fun k => decide ((L.min_count : ℚ) ≤ (mat.map List.sum).getD k 0))

/-- State (matrix, row_sums) after the first m iterations of the rebin loop. -/
def rebinIter (L : Learner) (mat : List (List ℚ)) (m : Nat) : List (List ℚ) × List ℚ :=
  (List.range m).foldl (rebinStep L (rebinNE L mat)) (mat, mat.map List.sum)

/-- Full rebin pass over all rows in ascending index order. -/
def rebinPass (L : Learner) (mat : List (List ℚ)) : List (List ℚ) :=
  (rebinIter L mat mat.length).1

/-- Keep-mask of the drop strategy: rows whose raw total reaches min_count. -/
def keepMask (L : Learner) (mat : List (List ℚ)) : List Bool :=
  mat.map (fun r => decide ((L.min_count : ℚ) ≤ r.sum))

/-- Boolean-mask selection, the semantics of indexing with np.ix_. -/
def maskFilter {α : Type} : List Bool → List α → List α
  | b :: ks, x :: xs => if b then x :: maskFilter ks xs else maskFilter ks xs
  | _, _ => []

/-- Drop strategy: both axes reduced by the same keep-mask. -/
def dropPass (L : Learner) (mat : List (List ℚ)) : List (List ℚ) :=
  (maskFilter (keepMask L mat) mat).map (fun r => maskFilter (keepMask L mat) r)

/-- The strategy part of clean_matrix: rebin, else drop, else unchanged. -/
def strategyPass (L : Learner) (mat : List (List ℚ)) : List (List ℚ) :=
  if L.auto_rebin then rebinPass L mat
  else if L.drop_empty then dropPass L mat
  else mat

/-- The bucket label list stored by this cleaning pass: unchanged under rebin
and the identity strategy, reduced by the keep-mask under drop. -/
def cleanedBuckets (L : Learner) (mat : List (List ℚ)) : List ℤ :=
  if L.auto_rebin then L.buckets
  else if L.drop_empty then maskFilter (keepMask L mat) L.buckets
  else L.buckets

/-- Laplace smoothing of one row: rows with positive total are shifted by alpha
and normalised, rows without stay at the zeros of np.zeros_like. -/
def smoothRow (alpha : ℚ) (r : List ℚ) : List ℚ :=
  if 0 < r.sum then
    (r.map (fun x => x + alpha)).map (fun x => x / (r.map (fun y => y + alpha)).sum)
  else r.map (fun _ => 0)

/-- Row-wise smoothing of the whole matrix. -/
def smooth (alpha : ℚ) (m : List (List ℚ)) : List (List ℚ) := m.map (smoothRow alpha)

/-- Embedding of clean_matrix: strategy pass, then Laplace smoothing of rows
with positive mass; also returns the bucket label list this pass stores. -/
def clean_matrix (L : Learner) (mat : List (List ℚ)) : List (List ℚ) × List ℤ :=
  (smooth L.alpha (strategyPass L mat), cleanedBuckets L mat)

/-- Possible outcomes of a get_matrix call. -/
inductive GetResult where
  | matrix : List (List ℚ) → GetResult
  | notFitted : GetResult
  | keyError : GetResult
  | invalidSelector : GetResult
deriving DecidableEq

/-- The matrix-holding state of a learner. -/
structure Store where
  mat_global : Option (List (List ℚ))
  mat_by_gh : List (String × List (List ℚ))
  mat_by_stage : List (ℤ × List (List ℚ))

/-- State of a freshly constructed learner, before any fit. -/
def initStore : Store := { mat_global := none, mat_by_gh := [], mat_by_stage := [] }

/-- Embedding of get_matrix. Branches are tested in source order: both
selectors none gives the global matrix or the not-fitted failure; a group
selector, whether or not a stage selector is also present, gives the group
dictionary lookup; a stage selector alone gives the stage dictionary lookup.
The final ValueError line of the source is unreachable, so no branch here
produces invalidSelector. -/
def get_matrix (st : Store) (gh : Option String) (stage : Option ℤ) : GetResult :=
  match gh, stage with
  | none, none =>
    match st.mat_global with
    | none => GetResult.notFitted
    | some m => GetResult.matrix m
  | some g, _ =>
    match st.mat_by_gh.lookup g with
    | some m => GetResult.matrix m
    | none => GetResult.keyError
  | none, some s =>
    match st.mat_by_stage.lookup s with
    | some m => GetResult.matrix m
    | none => GetResult.keyError

/-- Origin and destination raw values of each merged row. -/
def pairsOf (rows : List Row) : List (ℤ × ℤ) := rows.map (fun r => (r.1, r.2.1))

/-- Sorted-unique insertion of a key, building the ascending distinct key list
of a pandas groupby. -/
def insKey (x : ℤ) : List ℤ → List ℤ
  | [] => [x]
  | y :: ys => if x < y then x :: y :: ys else if x = y then y :: ys else y :: insKey x ys

/-- Ascending distinct keys of a groupby over the given values. -/
def sortedKeys (l : List ℤ) : List ℤ := l.foldr insKey []

/-- Stage keys of fit: the distinct raw origin values, ascending. -/
def stageKeys (rows : List Row) : List ℤ :=
  sortedKeys ((pairsOf rows).map (fun p => p.1))

/-- Group keys of fit: the distinct group labels present in the rows. -/
def groupKeys (rows : List Row) : List String :=
  (rows.filterMap (fun r => r.2.2)).eraseDups

/-- Cleaning pass of fit for one group key. -/
def groupClean (L : Learner) (rows : List Row) (g : String) : List (List ℚ) × List ℤ :=
  clean_matrix L (count_matrix L (pairsOf (rows.filter (fun r => decide (r.2.2 = some g)))))

/-- Cleaning pass of fit for one stage key: only the pairs whose raw origin
value equals the key are counted. -/
def stageClean (L : Learner) (rows : List Row) (k : ℤ) : List (List ℚ) × List ℤ :=
  clean_matrix L (count_matrix L ((pairsOf rows).filter (fun p => decide (p.1 = k))))

/-- Everything fit stores. -/
structure FitResult where
  mat_global : List (List ℚ)
  by_gh : List (String × List (List ℚ))
  by_stage : List (ℤ × List (List ℚ))
  cleaned_buckets : List ℤ

/-- Embedding of fit from the merged rows onward: the global clean, then one
clean per group key, then one clean per stage key; cleaned_buckets is
overwritten by every clean_matrix call, exactly as the attribute is in the
source, so the folds below keep only the label list of the latest pass. -/
def fitModel (L : Learner) (rows : List Row) : FitResult :=
  let gres := clean_matrix L (count_matrix L (pairsOf rows))
  let gks := groupKeys rows
  let sks := stageKeys rows
  let b1 := gks.foldl (fun _ g => (groupClean L rows g).2) gres.2
  let b2 := sks.foldl (fun _ k => (stageClean L rows k).2) b1
  { mat_global := gres.1
    by_gh := gks.map (fun g => (g, (groupClean L rows g).1))
    by_stage := sks.map (fun k => (k, (stageClean L rows k).1))
    cleaned_buckets := b2 }

/-- The store a fit call leaves behind. -/
def storeOf (f : FitResult) : Store :=
  { mat_global := some f.mat_global, mat_by_gh := f.by_gh, mat_by_stage := f.by_stage }

/-- Indices at which a boolean mask holds. -/
def trueIdxs : List Bool → List Nat
  | [] => []
  | b :: ks =>
    if b then 0 :: (trueIdxs ks).map (fun k => k + 1)
    else (trueIdxs ks).map (fun k => k + 1)

/-- Learner with both strategy flags off, buckets 0, 15, 30. -/
def L0 : Learner :=
  { buckets := [0, 15, 30], alpha := 1, auto_rebin := false, drop_empty := false,
    min_count := 10, rebin_window := 7 }

/-- Drop-strategy learner with min_count 1 over the same buckets. -/
def Ldrop : Learner := { L0 with drop_empty := true, min_count := 1 }

/-- Rebin-strategy learner with min_count 2 over the same buckets. -/
def Lreb : Learner := { L0 with auto_rebin := true, min_count := 2 }

/-- Two merged rows whose raw origin values 0 and 5 share bucket interval 0. -/
def rowsC : List Row := [(0, 0, none), (5, 0, none)]

/-- Two merged rows with origins in distinct buckets 0 and 15. -/
def rowsD : List Row := [(0, 0, none), (15, 0, none)]

/-- A 3 by 3 count matrix with one positive row and two zero rows. -/
def matA : List (List ℚ) := [[1, 0, 1], [0, 0, 0], [0, 0, 0]]

/-- A 3 by 3 count matrix whose first two rows reach min_count 1. -/
def matB : List (List ℚ) := [[1, 0, 0], [1, 0, 0], [0, 0, 0]]

/-- A 3 by 3 count matrix with a sparse middle row for the rebin scenario. -/
def matC : List (List ℚ) := [[2, 0, 0], [1, 0, 0], [0, 0, 3]]

/-- Invariant of the rebin loop state: shape and sign are preserved, the
row_sums array tracks the true row sums, total mass equals the initial total,
and the non_empty list computed before the loop is exactly the set of rows
whose current total reaches min_count. -/
def RebinInv (L : Learner) (mat0 : List (List ℚ)) (st : List (List ℚ) × List ℚ) : Prop :=
  st.1.length = mat0.length ∧
  (∀ r ∈ st.1, r.length = mat0.length) ∧
  (∀ r ∈ st.1, ∀ x ∈ r, 0 ≤ x) ∧
  st.2 = st.1.map List.sum ∧
  totalSum st.1 = totalSum mat0 ∧
  (∀ k, k < mat0.length → ((L.min_count : ℚ) ≤ st.2.getD k 0 ↔ k ∈ rebinNE L mat0))

/-! ### General list lemmas -/

theorem getD_set_same {α : Type} (d : α) (l : List α) (i : Nat) (x : α)
    (h : i < l.length) : (l.set i x).getD i d = x := by
  induction l generalizing i with
  | nil => simp at h
  | cons a as ih =>
    cases i with
    | zero => simp [List.set]
    | succ k => simpa [List.set] using ih k (by simpa using h)

theorem getD_set_other {α : Type} (d : α) (l : List α) (i m : Nat) (x : α)
    (h : i ≠ m) : (l.set i x).getD m d = l.getD m d := by
  induction l generalizing i m with
  | nil => simp [List.set]
  | cons a as ih =>
    cases i with
    | zero =>
      cases m with
      | zero => exact absurd rfl h
      | succ k => simp [List.set]
    | succ k =>
      cases m with
      | zero => simp [List.set]
      | succ k2 => simpa [List.set] using ih k k2 (fun he => h (by rw [he]))

theorem getD_map {α β : Type} (f : α → β) (d : α) (e : β) (l : List α) (k : Nat)
    (h : k < l.length) : (l.map f).getD k e = f (l.getD k d) := by
  induction l generalizing k with
  | nil => simp at h
  | cons a as ih =>
    cases k with
    | zero => simp
    | succ k2 => simpa using ih k2 (by simpa using h)

theorem sum_set (l : List ℚ) (i : Nat) (x : ℚ) (h : i < l.length) :
    (l.set i x).sum = l.sum - l.getD i 0 + x := by
  induction l generalizing i with
  | nil => simp at h
  | cons a as ih =>
    cases i with
    | zero => simp [List.set]; ring
    | succ k =>
      have := ih k (by simpa using h)
      simp [List.set, this]; ring

theorem sum_zipWith_add (a b : List ℚ) (h : a.length = b.length) :
    (List.zipWith (fun x y => x + y) a b).sum = a.sum + b.sum := by
  induction a generalizing b with
  | nil =>
    cases b with
    | nil => simp
    | cons y ys => simp at h
  | cons x xs ih =>
    cases b with
    | nil => simp at h
    | cons y ys =>
      have := ih ys (by simpa using h)
      simp [this]; ring

theorem sum_map_add_const (l : List ℚ) (a : ℚ) :
    (l.map (fun x => x + a)).sum = l.sum + a * l.length := by
  induction l with
  | nil => simp
  | cons x xs ih => simp [ih]; ring

theorem sum_map_div (l : List ℚ) (d : ℚ) :
    (l.map (fun x => x / d)).sum = l.sum / d := by
  induction l with
  | nil => simp
  | cons x xs ih => simp [ih]; ring

theorem getD_nonneg (l : List ℚ) (h : ∀ x ∈ l, 0 ≤ x) (k : Nat) : 0 ≤ l.getD k 0 := by
  induction l generalizing k with
  | nil => simp [List.getD]
  | cons a as ih =>
    cases k with
    | zero => exact h a (by simp)
    | succ k2 => simpa using ih (fun x hx => h x (by simp [hx])) k2

theorem ext_getD {α : Type} (d : α) (a b : List α) (hl : a.length = b.length)
    (h : ∀ k, k < a.length → a.getD k d = b.getD k d) : a = b := by
  induction a generalizing b with
  | nil =>
    cases b with
    | nil => rfl
    | cons y ys => simp at hl
  | cons x xs ih =>
    cases b with
    | nil => simp at hl
    | cons y ys =>
      have h0 := h 0 (by simp)
      simp at h0
      have := ih ys (by simpa using hl)
        (fun k hk => by simpa using h (k + 1) (by simpa using hk))
      rw [h0, this]

theorem sum_replicate_zero (n : Nat) : (List.replicate n (0 : ℚ)).sum = 0 := by
  induction n with
  | zero => simp
  | succ k ih => simp [List.replicate, ih]

theorem foldl_pres {β : Type} (Inv : β → Prop) (f : β → Nat → β) (l : List Nat)
    (b : β) (hb : Inv b) (hf : ∀ b2 x, x ∈ l → Inv b2 → Inv (f b2 x)) :
    Inv (l.foldl f b) := by
  induction l generalizing b with
  | nil => exact hb
  | cons x xs ih =>
    exact ih (f b x) (hf b x (by simp) hb)
      (fun b2 y hy h2 => hf b2 y (by simp [hy]) h2)

theorem foldl_overwrite {β γ : Type} (f : γ → β) (b : β) (l : List γ) (h : l ≠ []) :
    l.foldl (fun _ k => f k) b = f (l.getLast h) := by
  induction l generalizing b with
  | nil => exact absurd rfl h
  | cons x xs ih =>
    cases xs with
    | nil => simp [List.getLast]
    | cons y ys =>
      rw [List.foldl_cons, ih (f x) (by simp)]
      exact congrArg f (List.getLast_cons (by simp)).symm

theorem range_foldl_succ {β : Type} (f : β → Nat → β) (b : β) (m : Nat) :
    (List.range (m + 1)).foldl f b = f ((List.range m).foldl f b) m := by
  rw [List.range_succ, List.foldl_append]
  rfl

theorem map_const_zero (l : List ℚ) :
    l.map (fun _ => (0 : ℚ)) = List.replicate l.length 0 := by
  induction l with
  | nil => rfl
  | cons x xs ih => simp [List.replicate, ih]

theorem zipWith_add_nonneg (a b : List ℚ) (ha : ∀ x ∈ a, 0 ≤ x)
    (hb : ∀ x ∈ b, 0 ≤ x) :
    ∀ c ∈ List.zipWith (fun x y => x + y) a b, 0 ≤ c := by
  induction a generalizing b with
  | nil => simp
  | cons x xs ih =>
    cases b with
    | nil => simp
    | cons y ys =>
      intro c hc
      simp at hc
      rcases hc with hc | hc
      · rw [hc]
        exact add_nonneg (ha x (by simp)) (hb y (by simp))
      · exact ih ys (fun z hz => ha z (by simp [hz])) (fun z hz => hb z (by simp [hz])) c hc

/-! ### Mask selection lemmas -/

theorem maskFilter_map_pred {α : Type} (p : α → Bool) (l : List α) :
    maskFilter (l.map p) l = l.filter p := by
  induction l with
  | nil => rfl
  | cons a as ih =>
    by_cases h : p a = true
    · simp [maskFilter, h, ih, List.filter_cons]
    · simp at h
      simp [maskFilter, h, ih, List.filter_cons]

theorem maskFilter_eq_map_getD {α : Type} (d : α) :
    ∀ (keep : List Bool) (xs : List α), keep.length = xs.length →
      maskFilter keep xs = (trueIdxs keep).map (fun k => xs.getD k d) := by
  intro keep
  induction keep with
  | nil =>
    intro xs h
    cases xs with
    | nil => rfl
    | cons x xs2 => simp at h
  | cons b ks ih =>
    intro xs h
    cases xs with
    | nil => simp at h
    | cons x xs2 =>
      have h2 : ks.length = xs2.length := by simpa using h
      cases b with
      | true => simp [maskFilter, trueIdxs, ih xs2 h2, Function.comp]
      | false => simp [maskFilter, trueIdxs, ih xs2 h2, Function.comp]

theorem mem_trueIdxs : ∀ (keep : List Bool) (k : Nat),
    k ∈ trueIdxs keep ↔ keep.getD k false = true := by
  intro keep
  induction keep with
  | nil => intro k; simp [trueIdxs, List.getD]
  | cons b ks ih =>
    intro k
    cases k with
    | zero => cases b <;> simp [trueIdxs]
    | succ k2 =>
      cases b <;> simp [trueIdxs] <;>
        simpa [List.getD_eq_getElem?_getD] using ih k2

theorem trueIdxs_lt : ∀ (keep : List Bool), ∀ k ∈ trueIdxs keep, k < keep.length := by
  intro keep
  induction keep with
  | nil => intro k hk; simp [trueIdxs] at hk
  | cons b ks ih =>
    intro k hk
    cases b with
    | true =>
      simp [trueIdxs] at hk
      rcases hk with hk | hk
      · simp [hk]
      · rcases hk with ⟨a, ha, rfl⟩
        have := ih a ha
        simp; omega
    | false =>
      simp [trueIdxs] at hk
      rcases hk with ⟨a, ha, rfl⟩
      have := ih a ha
      simp; omega

/-! ### Python min lemmas -/

theorem pyMinKey_mem (f : Nat → ℤ) : ∀ (xs : List Nat) (x : Nat),
    pyMinKey f x xs ∈ x :: xs := by
  intro xs
  induction xs with
  | nil => intro x; simp [pyMinKey]
  | cons y ys ih =>
    intro x
    have step : pyMinKey f x (y :: ys) = pyMinKey f (if f y < f x then y else x) ys := rfl
    rw [step]
    have := ih (if f y < f x then y else x)
    rcases List.mem_cons.mp this with h | h
    · rw [h]
      split <;> simp
    · simp [h]

theorem pyMinKey_min (f : Nat → ℤ) : ∀ (xs : List Nat) (x : Nat),
    ∀ z ∈ x :: xs, f (pyMinKey f x xs) ≤ f z := by
  intro xs
  induction xs with
  | nil =>
    intro x z hz
    simp at hz
    simp [pyMinKey, hz]
  | cons y ys ih =>
    intro x z hz
    have step : pyMinKey f x (y :: ys) = pyMinKey f (if f y < f x then y else x) ys := rfl
    rw [step]
    have hx1 : f (if f y < f x then y else x) ≤ f x := by
      split
      · omega
      · exact le_refl _
    have hy1 : f (if f y < f x then y else x) ≤ f y := by
      split
      · exact le_refl _
      · omega
    have hmin := ih (if f y < f x then y else x)
    have hself : f (pyMinKey f (if f y < f x then y else x) ys) ≤
        f (if f y < f x then y else x) := hmin _ (by simp)
    rcases List.mem_cons.mp hz with h | h
    · rw [h]; exact le_trans hself hx1
    · rcases List.mem_cons.mp h with h2 | h2
      · rw [h2]; exact le_trans hself hy1
      · exact hmin z (by simp [h2])

/-! ### Sorted key insertion lemmas -/

theorem mem_insKey (x a : ℤ) : ∀ (l : List ℤ), a ∈ insKey x l ↔ a = x ∨ a ∈ l := by
  intro l
  induction l with
  | nil => simp [insKey]
  | cons y ys ih =>
    by_cases h1 : x < y
    · simp [insKey, h1]
    · by_cases h2 : x = y
      · subst h2
        simp [insKey, h1]
      · simp [insKey, h1, h2, ih]
        tauto

theorem pairwise_insKey (x : ℤ) : ∀ (l : List ℤ), l.Pairwise (· < ·) →
    (insKey x l).Pairwise (· < ·) := by
  intro l
  induction l with
  | nil => intro _; simp [insKey]
  | cons y ys ih =>
    intro h
    rcases List.pairwise_cons.mp h with ⟨hy, hys⟩
    by_cases h1 : x < y
    · simp only [insKey, if_pos h1]
      refine List.pairwise_cons.mpr ⟨?_, h⟩
      intro b hb
      rcases List.mem_cons.mp hb with rfl | hb2
      · exact h1
      · exact lt_trans h1 (hy b hb2)
    · by_cases h2 : x = y
      · simp only [insKey, if_neg h1, if_pos h2]
        exact h
      · simp only [insKey, if_neg h1, if_neg h2]
        refine List.pairwise_cons.mpr ⟨?_, ih hys⟩
        intro b hb
        rcases (mem_insKey x b ys).mp hb with rfl | hb2
        · omega
        · exact hy b hb2

theorem sortedKeys_pairwise (l : List ℤ) : (sortedKeys l).Pairwise (· < ·) := by
  induction l with
  | nil => simp [sortedKeys]
  | cons x xs ih => exact pairwise_insKey x _ ih

theorem sortedKeys_nodup (l : List ℤ) : (sortedKeys l).Nodup :=
  (sortedKeys_pairwise l).imp (fun h => ne_of_lt h)

theorem mem_sortedKeys (l : List ℤ) (a : ℤ) : a ∈ sortedKeys l ↔ a ∈ l := by
  induction l with
  | nil => simp [sortedKeys]
  | cons x xs ih =>
    have : sortedKeys (x :: xs) = insKey x (sortedKeys xs) := rfl
    rw [this, mem_insKey]
    simp [ih]

/-! ### Association list lemmas -/

theorem lookup_map_self {β : Type} (f : ℤ → β) : ∀ (ks : List ℤ) (k : ℤ),
    (ks.map (fun k2 => (k2, f k2))).lookup k =
      if k ∈ ks then some (f k) else none := by
  intro ks
  induction ks with
  | nil => intro k; simp [List.lookup]
  | cons a as ih =>
    intro k
    by_cases h : k = a
    · subst h
      simp [List.lookup]
    · have hb : (k == a) = false := by simp [h]
      simp [List.lookup, hb, ih k, h]

/-! ### Sorted countP lemmas for locate -/

theorem countP_sorted_front (v : ℤ) : ∀ (l : List ℤ), l.Pairwise (· ≤ ·) →
    (∀ k, k < l.countP (fun b => decide (b ≤ v)) → l.getD k 0 ≤ v) ∧
    (l.countP (fun b => decide (b ≤ v)) < l.length →
      v < l.getD (l.countP (fun b => decide (b ≤ v))) 0) := by
  intro l
  induction l with
  | nil => intro _; constructor <;> simp
  | cons b bs ih =>
    intro h
    rcases List.pairwise_cons.mp h with ⟨hb, hbs⟩
    rcases ih hbs with ⟨ih1, ih2⟩
    by_cases hbv : b ≤ v
    · have hc : (b :: bs).countP (fun b2 => decide (b2 ≤ v)) =
          bs.countP (fun b2 => decide (b2 ≤ v)) + 1 := by
        rw [List.countP_cons_of_pos]
        simp [hbv]
      constructor
      · intro k hk
        rw [hc] at hk
        cases k with
        | zero => simpa using hbv
        | succ k2 =>
          have : k2 < bs.countP (fun b2 => decide (b2 ≤ v)) := by omega
          simpa using ih1 k2 this
      · intro hlt
        rw [hc] at hlt ⊢
        have : bs.countP (fun b2 => decide (b2 ≤ v)) < bs.length := by
          simpa using hlt
        simpa using ih2 this
    · have hzero : bs.countP (fun b2 => decide (b2 ≤ v)) = 0 := by
        rw [List.countP_eq_zero]
        intro a ha
        simp
        have := hb a ha
        omega
      have hc : (b :: bs).countP (fun b2 => decide (b2 ≤ v)) = 0 := by
        rw [List.countP_cons_of_neg]
        · exact hzero
        · simp [hbv]
      rw [hc]
      constructor
      · intro k hk; omega
      · intro _
        simp
        omega

/-! ### Merge lemmas for the rebin strategy -/

theorem getD_mem {α : Type} (d : α) : ∀ (l : List α) (k : Nat), k < l.length →
    l.getD k d ∈ l := by
  intro l
  induction l with
  | nil => intro k hk; simp at hk
  | cons a as ih =>
    intro k hk
    cases k with
    | zero => simp
    | succ k2 =>
      have := ih k2 (by simpa using hk)
      rw [List.getD_cons_succ]
      exact List.mem_cons_of_mem a this

theorem getD_set_ite {α : Type} (d : α) (l : List α) (k : Nat) (x : α) (r : Nat)
    (hk : k < l.length) : (l.set k x).getD r d = if r = k then x else l.getD r d := by
  by_cases h : r = k
  · subst h
    rw [if_pos rfl]
    exact getD_set_same d l r x hk
  · rw [if_neg h]
    exact getD_set_other d l k r x (fun he => h he.symm)

theorem replicate_getD {α : Type} (d x : α) (n k : Nat) (h : k < n) :
    (List.replicate n x).getD k d = x := by
  induction n generalizing k with
  | zero => omega
  | succ n2 ih =>
    cases k with
    | zero => simp [List.replicate]
    | succ k2 => simpa [List.replicate] using ih k2 (by omega)

theorem getD_zipWith_add (a b : List ℚ) (k : Nat) (h1 : k < a.length)
    (h2 : k < b.length) :
    (List.zipWith (fun x y => x + y) a b).getD k 0 = a.getD k 0 + b.getD k 0 := by
  induction a generalizing b k with
  | nil => simp at h1
  | cons x xs ih =>
    cases b with
    | nil => simp at h2
    | cons y ys =>
      cases k with
      | zero => simp
      | succ k2 =>
        simpa using ih ys k2 (by simpa using h1) (by simpa using h2)

theorem merge_length (m : List (List ℚ)) (i j : Nat) :
    (mergeRowsCols m i j).length = m.length := by
  simp [mergeRowsCols]

theorem merge_getD_row (m : List (List ℚ)) (i j : Nat) (hi : i < m.length)
    (hj : j < m.length) (hij : i ≠ j) (r : Nat) (hr : r < m.length) :
    (mergeRowsCols m i j).getD r [] =
      (if r = i then (List.replicate (m.getD i []).length 0).set i 0
       else if r = j then
        ((List.zipWith (fun a b => a + b) (m.getD j []) (m.getD i [])).set j
          ((List.zipWith (fun a b => a + b) (m.getD j []) (m.getD i [])).getD j 0 +
           (List.zipWith (fun a b => a + b) (m.getD j []) (m.getD i [])).getD i 0)).set i 0
       else ((m.getD r []).set j
          ((m.getD r []).getD j 0 + (m.getD r []).getD i 0)).set i 0) := by
  set z := List.zipWith (fun a b => a + b) (m.getD j []) (m.getD i []) with hzdef
  set f2 : List ℚ → List ℚ := fun row => row.set j (row.getD j 0 + row.getD i 0)
    with hf2def
  set m1 := m.set j z with hm1def
  set m2 := m1.map f2 with hm2def
  set m3 := m2.set i (List.replicate (m2.getD i []).length 0) with hm3def
  have hm1len : m1.length = m.length := by rw [hm1def]; exact List.length_set m j z
  have hm2len : m2.length = m.length := by rw [hm2def, List.length_map, hm1len]
  have hm3len : m3.length = m.length := by rw [hm3def, List.length_set, hm2len]
  have hrow1 : ∀ r2, m1.getD r2 [] = if r2 = j then z else m.getD r2 [] :=
    fun r2 => getD_set_ite [] m j z r2 hj
  have hrow2 : ∀ r2, r2 < m.length → m2.getD r2 [] = f2 (m1.getD r2 []) := by
    intro r2 h
    rw [hm2def]
    exact getD_map f2 [] [] m1 r2 (by rw [hm1len]; exact h)
  have hrow2i : m2.getD i [] = f2 (m.getD i []) := by
    rw [hrow2 i hi, hrow1 i, if_neg hij]
  have hm3row : m3.getD r [] =
      if r = i then List.replicate (m2.getD i []).length 0 else m2.getD r [] := by
    rw [hm3def]
    exact getD_set_ite [] m2 i _ r (by rw [hm2len]; exact hi)
  have step4 : (mergeRowsCols m i j).getD r [] = (m3.getD r []).set i 0 := by
    show (m3.map (fun row => row.set i 0)).getD r [] = (m3.getD r []).set i 0
    exact getD_map (fun row => row.set i 0) [] [] m3 r (by rw [hm3len]; exact hr)
  rw [step4, hm3row]
  by_cases hri : r = i
  · subst hri
    rw [if_pos rfl, if_pos rfl, hrow2i]
    have : (f2 (m.getD r [])).length = (m.getD r []).length := by
      rw [hf2def]
      exact List.length_set _ _ _
    rw [this]
  · rw [if_neg hri, if_neg hri]
    by_cases hrj : r = j
    · subst hrj
      rw [if_pos rfl, hrow2 r hj, hrow1 r, if_pos rfl]
    · rw [if_neg hrj, hrow2 r hr, hrow1 r, if_neg hrj]

theorem merge_row_length (m : List (List ℚ)) (i j : Nat)
    (hsq : ∀ r ∈ m, r.length = m.length) (hi : i < m.length) (hj : j < m.length) :
    ∀ r ∈ mergeRowsCols m i j, r.length = m.length := by
  have hm1 : ∀ r ∈ m.set j (List.zipWith (fun a b => a + b) (m.getD j []) (m.getD i [])),
      r.length = m.length := by
    intro r hr
    rcases List.mem_or_eq_of_mem_set hr with h | h
    · exact hsq r h
    · rw [h, List.length_zipWith, hsq _ (getD_mem [] m j hj), hsq _ (getD_mem [] m i hi)]
      simp
  have hm2 : ∀ r ∈ (m.set j (List.zipWith (fun a b => a + b) (m.getD j [])
      (m.getD i []))).map (fun row => row.set j (row.getD j 0 + row.getD i 0)),
      r.length = m.length := by
    intro r hr
    rcases List.mem_map.mp hr with ⟨row, hrow, rfl⟩
    rw [List.length_set]
    exact hm1 row hrow
  intro r hr
  rcases List.mem_map.mp hr with ⟨row3, h3, rfl⟩
  rw [List.length_set]
  rcases List.mem_or_eq_of_mem_set h3 with h2 | h2
  · exact hm2 row3 h2
  · rw [h2, List.length_replicate]
    apply hm2
    apply getD_mem
    rw [List.length_map, List.length_set]
    exact hi

theorem merge_nonneg (m : List (List ℚ)) (i j : Nat)
    (hnn : ∀ r ∈ m, ∀ x ∈ r, 0 ≤ x) :
    ∀ r ∈ mergeRowsCols m i j, ∀ x ∈ r, 0 ≤ x := by
  have hgetrow : ∀ k, ∀ x ∈ m.getD k [], 0 ≤ x := by
    intro k x hx
    by_cases h : k < m.length
    · exact hnn _ (getD_mem [] m k h) x hx
    · have hnil : m.getD k [] = [] := by
        rw [List.getD_eq_getElem?_getD, List.getElem?_eq_none (by omega)]
        rfl
      rw [hnil] at hx
      simp at hx
  have hm1 : ∀ r ∈ m.set j (List.zipWith (fun a b => a + b) (m.getD j []) (m.getD i [])),
      ∀ x ∈ r, 0 ≤ x := by
    intro r hr
    rcases List.mem_or_eq_of_mem_set hr with h | h
    · exact hnn r h
    · rw [h]
      exact zipWith_add_nonneg _ _ (hgetrow j) (hgetrow i)
  have hm2 : ∀ r ∈ (m.set j (List.zipWith (fun a b => a + b) (m.getD j [])
      (m.getD i []))).map (fun row => row.set j (row.getD j 0 + row.getD i 0)),
      ∀ x ∈ r, 0 ≤ x := by
    intro r hr x hx
    rcases List.mem_map.mp hr with ⟨row, hrow, rfl⟩
    rcases List.mem_or_eq_of_mem_set hx with h | h
    · exact hm1 row hrow x h
    · rw [h]
      exact add_nonneg (getD_nonneg row (hm1 row hrow) j) (getD_nonneg row (hm1 row hrow) i)
  intro r hr x hx
  rcases List.mem_map.mp hr with ⟨row3, h3, rfl⟩
  rcases List.mem_or_eq_of_mem_set hx with h | h
  · rcases List.mem_or_eq_of_mem_set h3 with h2 | h2
    · exact hm2 row3 h2 x h
    · rw [h2] at h
      rw [List.eq_of_mem_replicate h]
  · rw [h]

theorem merge_map_sum (m : List (List ℚ)) (i j : Nat)
    (hsq : ∀ r ∈ m, r.length = m.length) (hi : i < m.length) (hj : j < m.length)
    (hij : i ≠ j) :
    (mergeRowsCols m i j).map List.sum =
      ((m.map List.sum).set j ((m.map List.sum).getD j 0 + (m.map List.sum).getD i 0)).set
        i 0 := by
  have hlen_rs : (m.map List.sum).length = m.length := List.length_map _ _
  have hrs : ∀ k, k < m.length → (m.map List.sum).getD k 0 = (m.getD k []).sum :=
    fun k hk => getD_map List.sum [] 0 m k hk
  apply ext_getD 0
  · rw [List.length_map, merge_length, List.length_set, List.length_set, hlen_rs]
  · intro k hk
    have hk2 : k < m.length := by
      rw [List.length_map, merge_length] at hk
      exact hk
    rw [getD_map List.sum [] 0 _ k (by rw [merge_length]; exact hk2)]
    rw [merge_getD_row m i j hi hj hij k hk2]
    rw [getD_set_ite 0 _ i 0 k (by rw [List.length_set, hlen_rs]; exact hi)]
    rw [getD_set_ite 0 _ j _ k (by rw [hlen_rs]; exact hj)]
    by_cases hki : k = i
    · subst hki
      rw [if_pos rfl, if_pos rfl]
      have hlen : (m.getD k []).length = m.length := hsq _ (getD_mem [] m k hk2)
      rw [sum_set _ k 0 (by rw [List.length_replicate, hlen]; exact hk2)]
      rw [sum_replicate_zero, replicate_getD 0 0 _ k (by rw [hlen]; exact hk2)]
      ring
    · rw [if_neg hki, if_neg hki]
      have hleni : (m.getD i []).length = m.length := hsq _ (getD_mem [] m i hi)
      by_cases hkj : k = j
      · subst hkj
        rw [if_pos rfl, if_pos rfl]
        have hlenj : (m.getD k []).length = m.length := hsq _ (getD_mem [] m k hj)
        have hzlen : (List.zipWith (fun a b => a + b) (m.getD k [])
            (m.getD i [])).length = m.length := by
          rw [List.length_zipWith, hlenj, hleni]
          simp
        rw [sum_set _ i 0 (by rw [List.length_set, hzlen]; exact hi)]
        rw [getD_set_other 0 _ k i _ hki]
        rw [sum_set _ k _ (by rw [hzlen]; exact hj)]
        rw [sum_zipWith_add _ _ (by rw [hlenj, hleni])]
        rw [getD_zipWith_add _ _ i (by rw [hlenj]; exact hi) (by rw [hleni]; exact hi)]
        rw [hrs k hj, hrs i hi]
        ring
      · rw [if_neg hkj, if_neg hkj]
        have hlenk : (m.getD k []).length = m.length := hsq _ (getD_mem [] m k hk2)
        rw [sum_set _ i 0 (by rw [List.length_set, hlenk]; exact hi)]
        rw [getD_set_other 0 _ j i _ (fun he => hij he.symm)]
        rw [sum_set _ j _ (by rw [hlenk]; exact hj)]
        rw [hrs k hk2]
        ring

/-! ### Rebin loop invariant -/

theorem chooseDonor_spec (L : Learner) (ne : List Nat) (i : Nat) (hne : ne ≠ []) :
    chooseDonor L ne i ∈
      (if (ne.filter fun c => decide (bucketDist L.buckets c i ≤ L.rebin_window)) = []
       then ne
       else ne.filter fun c => decide (bucketDist L.buckets c i ≤ L.rebin_window)) ∧
    (∀ x ∈ (if (ne.filter fun c => decide (bucketDist L.buckets c i ≤ L.rebin_window)) = []
       then ne
       else ne.filter fun c => decide (bucketDist L.buckets c i ≤ L.rebin_window)),
      bucketDist L.buckets (chooseDonor L ne i) i ≤ bucketDist L.buckets x i) := by
  have hcl : (if (ne.filter fun c => decide (bucketDist L.buckets c i ≤ L.rebin_window)) = []
      then ne
      else ne.filter fun c => decide (bucketDist L.buckets c i ≤ L.rebin_window)) ≠ [] := by
    split
    · exact hne
    · next h => exact h
  cases hcleq : (if (ne.filter fun c => decide (bucketDist L.buckets c i ≤ L.rebin_window)) = []
      then ne
      else ne.filter fun c => decide (bucketDist L.buckets c i ≤ L.rebin_window)) with
  | nil => exact absurd hcleq hcl
  | cons c cs =>
    have hch : chooseDonor L ne i = pyMinKey (fun x => bucketDist L.buckets x i) c cs := by
      show (match (if (ne.filter fun c2 => decide (bucketDist L.buckets c2 i ≤
            L.rebin_window)) = [] then ne
          else ne.filter fun c2 => decide (bucketDist L.buckets c2 i ≤ L.rebin_window)) with
        | [] => 0
        | c2 :: cs2 => pyMinKey (fun x => bucketDist L.buckets x i) c2 cs2) =
        pyMinKey (fun x => bucketDist L.buckets x i) c cs
      rw [hcleq]
    rw [hch]
    exact ⟨pyMinKey_mem _ cs c, pyMinKey_min _ cs c⟩

theorem chooseDonor_mem_ne (L : Learner) (ne : List Nat) (i : Nat) (hne : ne ≠ []) :
    chooseDonor L ne i ∈ ne := by
  have h := (chooseDonor_spec L ne i hne).1
  revert h
  split
  · exact fun h => h
  · exact fun h => List.mem_of_mem_filter h

theorem rebinNE_sub (L : Learner) (mat : List (List ℚ)) :
    ∀ k ∈ rebinNE L mat, k < mat.length := by
  intro k hk
  have := List.mem_filter.mp hk
  exact List.mem_range.mp this.1

theorem rebinStep_eq (L : Learner) (ne : List Nat) (st : List (List ℚ) × List ℚ)
    (i : Nat) :
    rebinStep L ne st i =
      if st.2.getD i 0 < (L.min_count : ℚ) then
        if ne = [] then st
        else
          (mergeRowsCols st.1 i (chooseDonor L ne i),
           (st.2.set (chooseDonor L ne i)
             (st.2.getD (chooseDonor L ne i) 0 + st.2.getD i 0)).set i 0)
      else st := rfl

theorem rebinStep_inv (L : Learner) (mat0 : List (List ℚ))
    (st : List (List ℚ) × List ℚ) (i : Nat) (hi : i < mat0.length)
    (h : RebinInv L mat0 st) : RebinInv L mat0 (rebinStep L (rebinNE L mat0) st i) := by
  obtain ⟨hlen, hsq, hnn, hrs, htot, hchar⟩ := h
  by_cases hs : st.2.getD i 0 < (L.min_count : ℚ)
  · by_cases hne : rebinNE L mat0 = []
    · have : rebinStep L (rebinNE L mat0) st i = st := by
        rw [rebinStep_eq, if_pos hs, if_pos hne]
      rw [this]
      exact ⟨hlen, hsq, hnn, hrs, htot, hchar⟩
    · have hstep : rebinStep L (rebinNE L mat0) st i =
          (mergeRowsCols st.1 i (chooseDonor L (rebinNE L mat0) i),
           (st.2.set (chooseDonor L (rebinNE L mat0) i)
             (st.2.getD (chooseDonor L (rebinNE L mat0) i) 0 + st.2.getD i 0)).set i 0) := by
        rw [rebinStep_eq, if_pos hs, if_neg hne]
      have hrs_nn : ∀ x ∈ st.2, 0 ≤ x := by
        rw [hrs]
        intro x hx
        rcases List.mem_map.mp hx with ⟨row, hrow, rfl⟩
        exact List.sum_nonneg (hnn row hrow)
      have hs_nonneg : 0 ≤ st.2.getD i 0 := getD_nonneg st.2 hrs_nn i
      have hcpos : (0 : ℚ) < (L.min_count : ℚ) := lt_of_le_of_lt hs_nonneg hs
      set j := chooseDonor L (rebinNE L mat0) i with hjdef
      have hjne : j ∈ rebinNE L mat0 := chooseDonor_mem_ne L _ i hne
      have hjlt : j < mat0.length := rebinNE_sub L mat0 j hjne
      have hjq : (L.min_count : ℚ) ≤ st.2.getD j 0 := (hchar j hjlt).mpr hjne
      have hij : i ≠ j := by
        intro he
        rw [← he] at hjq
        exact absurd hjq (not_le.mpr hs)
      have hsq2 : ∀ r ∈ st.1, r.length = st.1.length := by
        intro r hr
        rw [hlen]
        exact hsq r hr
      have hiM : i < st.1.length := by rw [hlen]; exact hi
      have hjM : j < st.1.length := by rw [hlen]; exact hjlt
      have hrslen : st.2.length = mat0.length := by
        rw [hrs, List.length_map, hlen]
      have hmsum := merge_map_sum st.1 i j hsq2 hiM hjM hij
      rw [hstep]
      refine ⟨?_, ?_, ?_, ?_, ?_, ?_⟩
      · rw [merge_length, hlen]
      · intro r hr
        rw [← hlen]
        exact merge_row_length st.1 i j hsq2 hiM hjM r hr
      · exact merge_nonneg st.1 i j hnn
      · rw [hmsum, hrs]
      · show totalSum (mergeRowsCols st.1 i j) = totalSum mat0
        have : totalSum (mergeRowsCols st.1 i j) =
            ((mergeRowsCols st.1 i j).map List.sum).sum := rfl
        rw [this, hmsum]
        have hlen2 : i < ((st.1.map List.sum).set j ((st.1.map List.sum).getD j 0 +
            (st.1.map List.sum).getD i 0)).length := by
          rw [List.length_set, List.length_map]
          exact hiM
        rw [sum_set _ i 0 hlen2]
        rw [getD_set_other 0 _ j i _ (fun he => hij he.symm)]
        rw [sum_set _ j _ (by rw [List.length_map]; exact hjM)]
        have : totalSum st.1 = (st.1.map List.sum).sum := rfl
        rw [← htot, this]
        ring
      · intro k hk
        by_cases hki : k = i
        · subst hki
          rw [getD_set_same 0 _ k 0 (by rw [List.length_set, hrslen]; exact hk)]
          constructor
          · intro hc
            exact absurd (lt_of_lt_of_le hcpos hc) (lt_irrefl 0)
          · intro hkne
            exact absurd ((hchar k hk).mpr hkne) (not_le.mpr hs)
        · rw [getD_set_other 0 _ i k _ (fun he => hki he.symm)]
          by_cases hkj : k = j
          · rw [hkj]
            rw [getD_set_same 0 _ j _ (by rw [hrslen]; exact hjlt)]
            constructor
            · intro _
              exact hjne
            · intro _
              linarith
          · rw [getD_set_other 0 _ j k _ (fun he => hkj he.symm)]
            exact hchar k hk
  · have : rebinStep L (rebinNE L mat0) st i = st := by
      rw [rebinStep_eq, if_neg hs]
    rw [this]
    exact ⟨hlen, hsq, hnn, hrs, htot, hchar⟩

theorem rebinIter_inv (L : Learner) (mat : List (List ℚ))
    (hsq : ∀ r ∈ mat, r.length = mat.length)
    (hnn : ∀ r ∈ mat, ∀ x ∈ r, 0 ≤ x) (m : Nat) (hm : m ≤ mat.length) :
    RebinInv L mat (rebinIter L mat m) := by
  apply foldl_pres (RebinInv L mat) (rebinStep L (rebinNE L mat)) (List.range m)
  · refine ⟨rfl, hsq, hnn, rfl, rfl, ?_⟩
    intro k hk
    constructor
    · intro hc
      apply List.mem_filter.mpr
      exact ⟨List.mem_range.mpr hk, by simpa using hc⟩
    · intro hkne
      have := (List.mem_filter.mp hkne).2
      simpa using this
  · intro b x hx hb
    exact rebinStep_inv L mat b x (lt_of_lt_of_le (List.mem_range.mp hx) hm) hb

/-! ### Claim theorems -/

/-- C1: for every count matrix and every cleaning strategy with alpha at least
zero, every row of the cleaned matrix whose post-strategy mass is positive
equals the post-strategy row shifted by alpha and divided by the shifted sum
over the currently present columns, and therefore sums to exactly 1. -/
theorem c1_smoothed_rows_normalized (L : Learner) (mat : List (List ℚ)) (i : Nat)
    (ha : 0 ≤ L.alpha)
    (hpos : 0 < ((strategyPass L mat).getD i []).sum) :
    (∀ k, k < ((strategyPass L mat).getD i []).length →
      ((clean_matrix L mat).1.getD i []).getD k 0 =
        (((strategyPass L mat).getD i []).getD k 0 + L.alpha) /
          (((strategyPass L mat).getD i []).sum +
            L.alpha * ((strategyPass L mat).getD i []).length)) ∧
    ((clean_matrix L mat).1.getD i []).sum = 1 := by
  have hi : i < (strategyPass L mat).length := by
    by_contra hcon
    have hnil : (strategyPass L mat).getD i [] = [] := by
      rw [List.getD_eq_getElem?_getD, List.getElem?_eq_none (by omega)]
      rfl
    rw [hnil] at hpos
    simp at hpos
  have hrow : (clean_matrix L mat).1.getD i [] =
      smoothRow L.alpha ((strategyPass L mat).getD i []) := by
    show (smooth L.alpha (strategyPass L mat)).getD i [] = _
    exact getD_map (smoothRow L.alpha) [] [] _ i hi
  have hS : (((strategyPass L mat).getD i []).map (fun y => y + L.alpha)).sum =
      ((strategyPass L mat).getD i []).sum +
        L.alpha * ((strategyPass L mat).getD i []).length :=
    sum_map_add_const _ _
  have hSpos : 0 < (((strategyPass L mat).getD i []).map (fun y => y + L.alpha)).sum := by
    rw [hS]
    have : 0 ≤ L.alpha * ((strategyPass L mat).getD i []).length :=
      mul_nonneg ha (by positivity)
    linarith
  have hsm : smoothRow L.alpha ((strategyPass L mat).getD i []) =
      (((strategyPass L mat).getD i []).map (fun x => x + L.alpha)).map
        (fun x => x / (((strategyPass L mat).getD i []).map (fun y => y + L.alpha)).sum) := by
    unfold smoothRow
    rw [if_pos hpos]
  constructor
  · intro k hk
    rw [hrow, hsm]
    rw [getD_map _ 0 0 _ k (by rw [List.length_map]; exact hk)]
    rw [getD_map _ 0 0 _ k hk]
    rw [hS]
  · rw [hrow, hsm, sum_map_div, hS]
    rw [← hS]
    exact div_self (ne_of_gt hSpos)

/-- Witness for C1 at the concrete learner L0 and matrix matA, row 0. -/
theorem c1_smoothed_rows_normalized_witness :
    (0 : ℚ) ≤ L0.alpha ∧ 0 < ((strategyPass L0 matA).getD 0 []).sum ∧
    ((clean_matrix L0 matA).1.getD 0 []).sum = 1 :=
  ⟨by with_unfolding_all decide, by with_unfolding_all decide,
   (c1_smoothed_rows_normalized L0 matA 0 (by with_unfolding_all decide)
     (by with_unfolding_all decide)).2⟩

/-- C2: the rebin pass conserves total matrix mass exactly, before smoothing,
for every square count matrix with nonnegative entries. -/
theorem c2_rebin_conserves_mass (L : Learner) (mat : List (List ℚ))
    (hreb : L.auto_rebin = true)
    (hsq : ∀ r ∈ mat, r.length = mat.length)
    (hnn : ∀ r ∈ mat, ∀ x ∈ r, 0 ≤ x) :
    totalSum (strategyPass L mat) = totalSum mat := by
  have hinv := rebinIter_inv L mat hsq hnn mat.length (le_refl _)
  have hid : strategyPass L mat = rebinPass L mat := by
    unfold strategyPass
    rw [hreb]
    simp
  rw [hid]
  exact hinv.2.2.2.2.1

/-- Witness for C2 at the concrete rebin learner Lreb and matrix matC. -/
theorem c2_rebin_conserves_mass_witness :
    Lreb.auto_rebin = true ∧ (∀ r ∈ matC, r.length = matC.length) ∧
    totalSum (strategyPass Lreb matC) = totalSum matC :=
  ⟨rfl, by with_unfolding_all decide,
   c2_rebin_conserves_mass Lreb matC rfl (by with_unfolding_all decide)
     (by with_unfolding_all decide)⟩

/-- C4: under the None and Rebin strategies, every row whose post-strategy
total is zero stays the exact zero vector in the cleaned matrix, whatever
alpha is. -/
theorem c4_zero_rows_stay_zero (L : Learner) (mat : List (List ℚ)) (i : Nat)
    (_hdrop : L.drop_empty = false)
    (hi : i < (strategyPass L mat).length)
    (hz : ((strategyPass L mat).getD i []).sum = 0) :
    (clean_matrix L mat).1.getD i [] =
      List.replicate ((strategyPass L mat).getD i []).length 0 := by
  have hrow : (clean_matrix L mat).1.getD i [] =
      smoothRow L.alpha ((strategyPass L mat).getD i []) := by
    show (smooth L.alpha (strategyPass L mat)).getD i [] = _
    exact getD_map (smoothRow L.alpha) [] [] _ i hi
  rw [hrow]
  unfold smoothRow
  rw [if_neg (by rw [hz]; exact lt_irrefl 0)]
  exact map_const_zero _

/-- Witness for C4 at the concrete learner L0 and matrix matA, row 1. -/
theorem c4_zero_rows_stay_zero_witness :
    L0.drop_empty = false ∧ ((strategyPass L0 matA).getD 1 []).sum = 0 ∧
    (clean_matrix L0 matA).1.getD 1 [] =
      List.replicate ((strategyPass L0 matA).getD 1 []).length 0 :=
  ⟨rfl, by with_unfolding_all decide,
   c4_zero_rows_stay_zero L0 matA 1 rfl (by with_unfolding_all decide)
     (by with_unfolding_all decide)⟩

/-- C3: under the drop strategy the cleaned matrix keeps exactly the rows and
columns whose raw row total reaches min_count, both axes reduced by the same
keep-mask, and the returned bucket list is exactly the kept buckets in order,
with length equal to the number of kept buckets. -/
theorem c3_drop_exact (L : Learner) (mat : List (List ℚ))
    (hreb : L.auto_rebin = false) (hdrop : L.drop_empty = true)
    (hsq : ∀ r ∈ mat, r.length = mat.length)
    (hlen : L.buckets.length = mat.length) :
    (∀ idx, idx < mat.length →
      ((keepMask L mat).getD idx false = true ↔
        (L.min_count : ℚ) ≤ (mat.getD idx []).sum)) ∧
    strategyPass L mat =
      (trueIdxs (keepMask L mat)).map (fun a =>
        (trueIdxs (keepMask L mat)).map (fun b => (mat.getD a []).getD b 0)) ∧
    (clean_matrix L mat).2 =
      (trueIdxs (keepMask L mat)).map (fun k => L.buckets.getD k 0) ∧
    (clean_matrix L mat).2.length = (trueIdxs (keepMask L mat)).length ∧
    (clean_matrix L mat).1.length = (trueIdxs (keepMask L mat)).length := by
  have hkm : (keepMask L mat).length = mat.length := List.length_map _ _
  have hstrat : strategyPass L mat =
      (maskFilter (keepMask L mat) mat).map (fun r => maskFilter (keepMask L mat) r) := by
    unfold strategyPass
    rw [hreb, hdrop]
    simp [dropPass]
  have hrows : maskFilter (keepMask L mat) mat =
      (trueIdxs (keepMask L mat)).map (fun a => mat.getD a []) :=
    maskFilter_eq_map_getD [] (keepMask L mat) mat hkm
  have hcols : ∀ a ∈ trueIdxs (keepMask L mat),
      maskFilter (keepMask L mat) (mat.getD a []) =
        (trueIdxs (keepMask L mat)).map (fun b => (mat.getD a []).getD b 0) := by
    intro a ha
    have halt : a < mat.length := by
      have := trueIdxs_lt (keepMask L mat) a ha
      rw [hkm] at this
      exact this
    apply maskFilter_eq_map_getD 0
    rw [hkm, hsq _ (getD_mem [] mat a halt)]
  have hmatrix : strategyPass L mat =
      (trueIdxs (keepMask L mat)).map (fun a =>
        (trueIdxs (keepMask L mat)).map (fun b => (mat.getD a []).getD b 0)) := by
    rw [hstrat, hrows, List.map_map]
    exact List.map_congr_left hcols
  have hbks : (clean_matrix L mat).2 =
      (trueIdxs (keepMask L mat)).map (fun k => L.buckets.getD k 0) := by
    show cleanedBuckets L mat = _
    unfold cleanedBuckets
    rw [hreb, hdrop]
    simp only [Bool.false_eq_true, if_false, if_true]
    exact maskFilter_eq_map_getD 0 (keepMask L mat) L.buckets (by rw [hkm, hlen])
  refine ⟨?_, hmatrix, hbks, ?_, ?_⟩
  · intro idx hidx
    have : (keepMask L mat).getD idx false =
        decide ((L.min_count : ℚ) ≤ (mat.getD idx []).sum) :=
      getD_map _ [] false mat idx hidx
    rw [this]
    exact decide_eq_true_iff
  · rw [hbks, List.length_map]
  · show (smooth L.alpha (strategyPass L mat)).length = _
    rw [smooth, List.length_map, hmatrix, List.length_map]

/-- Witness for C3 at the concrete drop learner Ldrop and matrix matB. -/
theorem c3_drop_exact_witness :
    Ldrop.drop_empty = true ∧ (∀ r ∈ matB, r.length = matB.length) ∧
    (clean_matrix Ldrop matB).2 =
      (trueIdxs (keepMask Ldrop matB)).map (fun k => Ldrop.buckets.getD k 0) ∧
    (clean_matrix Ldrop matB).1.length = (trueIdxs (keepMask Ldrop matB)).length :=
  ⟨rfl, by with_unfolding_all decide,
   (c3_drop_exact Ldrop matB rfl rfl (by with_unfolding_all decide) rfl).2.2.1,
   (c3_drop_exact Ldrop matB rfl rfl (by with_unfolding_all decide) rfl).2.2.2.2⟩

/-- C5: along the rebin pass, processed in ascending row order, the non_empty
list computed before the loop is at every step exactly the set of rows whose
current total reaches min_count; when the sparse row i is reached, if that set
is empty the state is unchanged, and otherwise the donor is a member of the
window-filtered candidate list, falling back to the whole qualified list, that
minimises the bucket label distance to row i, the donor currently holds at
least min_count, and the step merges row and column i into the donor. -/
theorem c5_rebin_donor_rule (L : Learner) (mat : List (List ℚ)) (i : Nat)
    (hsq : ∀ r ∈ mat, r.length = mat.length)
    (hnn : ∀ r ∈ mat, ∀ x ∈ r, 0 ≤ x)
    (hi : i < mat.length)
    (hsp : (rebinIter L mat i).2.getD i 0 < (L.min_count : ℚ)) :
    (∀ k, k < mat.length →
      ((L.min_count : ℚ) ≤ (rebinIter L mat i).2.getD k 0 ↔ k ∈ rebinNE L mat)) ∧
    (rebinNE L mat = [] → rebinIter L mat (i + 1) = rebinIter L mat i) ∧
    (rebinNE L mat ≠ [] →
      ∃ d,
        d ∈ (if ((rebinNE L mat).filter fun c =>
              decide (bucketDist L.buckets c i ≤ L.rebin_window)) = []
            then rebinNE L mat
            else (rebinNE L mat).filter fun c =>
              decide (bucketDist L.buckets c i ≤ L.rebin_window)) ∧
        (∀ x ∈ (if ((rebinNE L mat).filter fun c =>
              decide (bucketDist L.buckets c i ≤ L.rebin_window)) = []
            then rebinNE L mat
            else (rebinNE L mat).filter fun c =>
              decide (bucketDist L.buckets c i ≤ L.rebin_window)),
          bucketDist L.buckets d i ≤ bucketDist L.buckets x i) ∧
        (L.min_count : ℚ) ≤ (rebinIter L mat i).2.getD d 0 ∧
        rebinIter L mat (i + 1) =
          (mergeRowsCols (rebinIter L mat i).1 i d,
           ((rebinIter L mat i).2.set d
             ((rebinIter L mat i).2.getD d 0 + (rebinIter L mat i).2.getD i 0)).set
             i 0)) := by
  have hinv := rebinIter_inv L mat hsq hnn i (le_of_lt hi)
  obtain ⟨hlen, hsq2, hnn2, hrs, htot, hchar⟩ := hinv
  have hsucc : rebinIter L mat (i + 1) =
      rebinStep L (rebinNE L mat) (rebinIter L mat i) i :=
    range_foldl_succ (rebinStep L (rebinNE L mat)) (mat, mat.map List.sum) i
  refine ⟨hchar, ?_, ?_⟩
  · intro hne
    rw [hsucc, rebinStep_eq, if_pos hsp, if_pos hne]
  · intro hne
    refine ⟨chooseDonor L (rebinNE L mat) i, (chooseDonor_spec L _ i hne).1,
      (chooseDonor_spec L _ i hne).2, ?_, ?_⟩
    · exact (hchar _ (rebinNE_sub L mat _ (chooseDonor_mem_ne L _ i hne))).mpr
        (chooseDonor_mem_ne L _ i hne)
    · rw [hsucc, rebinStep_eq, if_pos hsp, if_neg hne]

/-- Witness for C5 at the rebin learner Lreb and matrix matC, sparse row 1:
the window contains no qualified row, so the donor falls back to the globally
nearest qualified row, which is row 0. -/
theorem c5_rebin_donor_rule_witness :
    (rebinIter Lreb matC 1).2.getD 1 0 < ((Lreb.min_count : ℚ)) ∧
    rebinNE Lreb matC ≠ [] ∧
    (∃ d,
      d ∈ (if ((rebinNE Lreb matC).filter fun c =>
            decide (bucketDist Lreb.buckets c 1 ≤ Lreb.rebin_window)) = []
          then rebinNE Lreb matC
          else (rebinNE Lreb matC).filter fun c =>
            decide (bucketDist Lreb.buckets c 1 ≤ Lreb.rebin_window)) ∧
      (∀ x ∈ (if ((rebinNE Lreb matC).filter fun c =>
            decide (bucketDist Lreb.buckets c 1 ≤ Lreb.rebin_window)) = []
          then rebinNE Lreb matC
          else (rebinNE Lreb matC).filter fun c =>
            decide (bucketDist Lreb.buckets c 1 ≤ Lreb.rebin_window)),
        bucketDist Lreb.buckets d 1 ≤ bucketDist Lreb.buckets x 1) ∧
      (Lreb.min_count : ℚ) ≤ (rebinIter Lreb matC 1).2.getD d 0 ∧
      rebinIter Lreb matC (1 + 1) =
        (mergeRowsCols (rebinIter Lreb matC 1).1 1 d,
         ((rebinIter Lreb matC 1).2.set d
           ((rebinIter Lreb matC 1).2.getD d 0 + (rebinIter Lreb matC 1).2.getD 1 0)).set
           1 0)) := by
  have h := c5_rebin_donor_rule Lreb matC 1 (by with_unfolding_all decide)
    (by with_unfolding_all decide) (by decide) (by with_unfolding_all decide)
  exact ⟨by with_unfolding_all decide, by with_unfolding_all decide,
    h.2.2 (by with_unfolding_all decide)⟩

/-- C6 counterexample: for a value below the smallest threshold, locate does
not fail with an out-of-range condition; it returns -1, and the count loop
silently assigns the transition to the last bucket row through negative-index
wraparound, so mass is recorded instead of an error being raised. -/
theorem c6_locate_counterexample :
    locate [0, 15, 30] (-5) = -1 ∧
    matGet (count_matrix L0 [(-5, 0)]) 2 0 = 1 ∧
    totalSum (count_matrix L0 [(-5, 0)]) = 1 := by
  refine ⟨by decide, by with_unfolding_all decide, by with_unfolding_all decide⟩

/-- C6 amended: for value at least the smallest threshold, locate returns the
greatest-threshold index as specified; for value below the smallest threshold
it does not fail but returns -1, whose effective numpy index is the last row. -/
theorem c6_locate_amended (bk : List ℤ) (v : ℤ)
    (hs : bk.Pairwise (· < ·)) (hne : bk ≠ []) :
    (bk.getD 0 0 ≤ v →
      1 ≤ bk.countP (fun b => decide (b ≤ v)) ∧
      bk.countP (fun b => decide (b ≤ v)) ≤ bk.length ∧
      locate bk v = (bk.countP (fun b => decide (b ≤ v)) : ℤ) - 1 ∧
      bk.getD (bk.countP (fun b => decide (b ≤ v)) - 1) 0 ≤ v ∧
      (bk.countP (fun b => decide (b ≤ v)) = bk.length ∨
        v < bk.getD (bk.countP (fun b => decide (b ≤ v))) 0)) ∧
    (v < bk.getD 0 0 →
      locate bk v = -1 ∧
      effIndex bk.length (locate bk v) = (bk.length : ℤ) - 1) := by
  have hsle : bk.Pairwise (· ≤ ·) := hs.imp (fun h => le_of_lt h)
  obtain ⟨h1, h2⟩ := countP_sorted_front v bk hsle
  cases bk with
  | nil => exact absurd rfl hne
  | cons b bs =>
    constructor
    · intro hb
      have hb0 : b ≤ v := by simpa using hb
      have hpos : 0 < (b :: bs).countP (fun x => decide (x ≤ v)) := by
        apply List.countP_pos_iff.mpr
        exact ⟨b, by simp, by simpa using hb0⟩
      refine ⟨hpos, List.countP_le_length _, rfl, ?_, ?_⟩
      · exact h1 _ (by omega)
      · by_cases hc : (b :: bs).countP (fun x => decide (x ≤ v)) = (b :: bs).length
        · exact Or.inl hc
        · exact Or.inr (h2 (lt_of_le_of_ne (List.countP_le_length _) hc))
    · intro hv
      have hv0 : v < b := by simpa using hv
      have hzero : (b :: bs).countP (fun x => decide (x ≤ v)) = 0 := by
        rw [List.countP_eq_zero]
        intro a ha
        simp only [decide_eq_true_eq]
        rcases List.mem_cons.mp ha with rfl | ha2
        · omega
        · have := (List.pairwise_cons.mp hs).1 a ha2
          omega
      have hloc : locate (b :: bs) v = -1 := by
        unfold locate
        rw [hzero]
        norm_num
      refine ⟨hloc, ?_⟩
      rw [hloc]
      unfold effIndex
      rw [if_pos (by norm_num : (-1 : ℤ) < 0)]
      ring

/-- Witness for the amended C6 at thresholds 0, 15, 30 and value 20. -/
theorem c6_locate_amended_witness :
    1 ≤ ([0, 15, 30] : List ℤ).countP (fun b => decide (b ≤ 20)) ∧
    ([0, 15, 30] : List ℤ).countP (fun b => decide (b ≤ 20)) ≤
      ([0, 15, 30] : List ℤ).length ∧
    locate [0, 15, 30] 20 =
      ((([0, 15, 30] : List ℤ).countP (fun b => decide (b ≤ 20)) : ℤ)) - 1 ∧
    ([0, 15, 30] : List ℤ).getD
      (([0, 15, 30] : List ℤ).countP (fun b => decide (b ≤ 20)) - 1) 0 ≤ 20 ∧
    (([0, 15, 30] : List ℤ).countP (fun b => decide (b ≤ 20)) =
        ([0, 15, 30] : List ℤ).length ∨
      20 < ([0, 15, 30] : List ℤ).getD
        (([0, 15, 30] : List ℤ).countP (fun b => decide (b ≤ 20))) 0) :=
  (c6_locate_amended [0, 15, 30] 20 (by decide) (by decide)).1 (by decide)

/-- C7 counterexample: when both selectors are supplied the call does not fail
with the invalid-selector error; the group branch wins and the group matrix is
returned. -/
theorem c7_both_selectors_counterexample :
    get_matrix { mat_global := none, mat_by_gh := [("A", [[1]])], mat_by_stage := [] }
      (some "A") (some 0) = GetResult.matrix [[1]] ∧
    get_matrix { mat_global := none, mat_by_gh := [("A", [[1]])], mat_by_stage := [] }
      (some "A") (some 0) ≠ GetResult.invalidSelector := by
  refine ⟨rfl, ?_⟩
  rw [show get_matrix
      { mat_global := none, mat_by_gh := [("A", [[1]])], mat_by_stage := [] }
      (some "A") (some 0) = GetResult.matrix [[1]] from rfl]
  nofun

/-- C7 amended: get_matrix never produces the invalid-selector failure, and
with both selectors supplied the group lookup result is returned. -/
theorem c7_no_invalid_selector :
    (∀ (st : Store) (gh : Option String) (stage : Option ℤ),
      get_matrix st gh stage ≠ GetResult.invalidSelector) ∧
    (∀ (st : Store) (g : String) (s : ℤ),
      get_matrix st (some g) (some s) =
        (match st.mat_by_gh.lookup g with
         | some m => GetResult.matrix m
         | none => GetResult.keyError)) := by
  constructor
  · intro st gh stage
    cases gh with
    | some g =>
      show (match st.mat_by_gh.lookup g with
        | some m => GetResult.matrix m
        | none => GetResult.keyError) ≠ GetResult.invalidSelector
      cases st.mat_by_gh.lookup g <;> nofun
    | none =>
      cases stage with
      | some s =>
        show (match st.mat_by_stage.lookup s with
          | some m => GetResult.matrix m
          | none => GetResult.keyError) ≠ GetResult.invalidSelector
        cases st.mat_by_stage.lookup s <;> nofun
      | none =>
        show (match st.mat_global with
          | none => GetResult.notFitted
          | some m => GetResult.matrix m) ≠ GetResult.invalidSelector
        cases st.mat_global <;> nofun
  · intro st g s
    rfl

/-- Witness for the amended C7 at a concrete store with one group matrix. -/
theorem c7_no_invalid_selector_witness :
    get_matrix { mat_global := none, mat_by_gh := [("A", [[1]])], mat_by_stage := [] }
      (some "A") (some 0) =
      (match List.lookup "A" [("A", ([[1]] : List (List ℚ)))] with
       | some m => GetResult.matrix m
       | none => GetResult.keyError) :=
  c7_no_invalid_selector.2
    { mat_global := none, mat_by_gh := [("A", [[1]])], mat_by_stage := [] } "A" 0

/-- C8 counterexample: on a freshly constructed estimator a group query fails
with the missing-key error of an empty dictionary, not with the not-fitted
condition. -/
theorem c8_unfitted_counterexample :
    get_matrix initStore (some "A") none = GetResult.keyError ∧
    GetResult.keyError ≠ GetResult.notFitted :=
  ⟨rfl, by nofun⟩

/-- C8 amended: before any fit, only the global query fails with the
not-fitted condition; group and stage queries fail with the missing-key
error of the empty dictionaries instead. -/
theorem c8_unfitted_amended :
    get_matrix initStore none none = GetResult.notFitted ∧
    (∀ g : String, get_matrix initStore (some g) none = GetResult.keyError) ∧
    (∀ s : ℤ, get_matrix initStore none (some s) = GetResult.keyError) ∧
    (∀ (g : String) (s : ℤ),
      get_matrix initStore (some g) (some s) = GetResult.keyError) :=
  ⟨rfl, fun _ => rfl, fun _ => rfl, fun _ _ => rfl⟩

/-- C9 counterexample: the raw origin values 0 and 5 fall in the same bucket
interval, yet fit produces two distinct stage matrices keyed by the raw
values, and the pair with origin 5 is not counted into the stage-0 matrix. -/
theorem c9_stage_counterexample :
    locate L0.buckets 0 = locate L0.buckets 5 ∧
    stageKeys rowsC = [0, 5] ∧
    (fitModel L0 rowsC).by_stage.map (fun p => p.1) = [0, 5] ∧
    totalSum (count_matrix L0
      ((pairsOf rowsC).filter (fun p => decide (p.1 = (0 : ℤ))))) = 1 := by
  refine ⟨by decide, by decide, by with_unfolding_all decide,
    by with_unfolding_all decide⟩

/-- C9 amended: per-stage aggregation groups transition pairs by raw origin
value: there is exactly one stage matrix per distinct observed raw origin
value, keyed by that value, and it counts exactly the pairs with that exact
origin value. -/
theorem c9_stage_grouping_amended (L : Learner) (rows : List Row) :
    (fitModel L rows).by_stage.map (fun p => p.1) = stageKeys rows ∧
    (stageKeys rows).Nodup ∧
    (∀ r ∈ rows, r.1 ∈ stageKeys rows) ∧
    (∀ k : ℤ, (fitModel L rows).by_stage.lookup k =
      if k ∈ stageKeys rows then some (stageClean L rows k).1 else none) := by
  refine ⟨?_, sortedKeys_nodup _, ?_, ?_⟩
  · show ((stageKeys rows).map (fun k => (k, (stageClean L rows k).1))).map
        (fun p => p.1) = stageKeys rows
    rw [List.map_map]
    exact List.map_id' (stageKeys rows)
  · intro r hr
    show r.1 ∈ sortedKeys ((pairsOf rows).map (fun p => p.1))
    rw [mem_sortedKeys]
    exact List.mem_map.mpr ⟨(r.1, r.2.1), List.mem_map.mpr ⟨r, hr, rfl⟩, rfl⟩
  · intro k
    show ((stageKeys rows).map (fun k2 => (k2, (stageClean L rows k2).1))).lookup k = _
    exact lookup_map_self (fun k2 => (stageClean L rows k2).1) (stageKeys rows) k

/-- Witness for the amended C9 at the concrete learner L0 and rows rowsC. -/
theorem c9_stage_grouping_amended_witness :
    (0 : ℤ) ∈ stageKeys rowsC ∧
    (fitModel L0 rowsC).by_stage.lookup (0 : ℤ) = some (stageClean L0 rowsC 0).1 := by
  have h := c9_stage_grouping_amended L0 rowsC
  have hm : (0 : ℤ) ∈ stageKeys rowsC := h.2.2.1 (0, 0, none) (by decide)
  refine ⟨hm, ?_⟩
  rw [h.2.2.2 0, if_pos hm]

/-- C10: the stored bucket label list after fit is the one of the last
cleaning pass, which is the last per-stage pass whenever a stage exists; and
under the drop strategy there is a concrete input for which that stored list
does not match the dimensions of the global matrix that get_matrix returns. -/
theorem c10_stored_buckets_from_last_stage :
    (∀ (L : Learner) (rows : List Row) (h : stageKeys rows ≠ []),
      (fitModel L rows).cleaned_buckets =
        (stageClean L rows ((stageKeys rows).getLast h)).2) ∧
    ((fitModel Ldrop rowsD).cleaned_buckets.length = 1 ∧
     get_matrix (storeOf (fitModel Ldrop rowsD)) none none =
       GetResult.matrix (fitModel Ldrop rowsD).mat_global ∧
     (fitModel Ldrop rowsD).mat_global.length = 2) := by
  constructor
  · intro L rows h
    show (stageKeys rows).foldl (fun _ k => (stageClean L rows k).2)
        ((groupKeys rows).foldl (fun _ g => (groupClean L rows g).2)
          (clean_matrix L (count_matrix L (pairsOf rows))).2) =
      (stageClean L rows ((stageKeys rows).getLast h)).2
    exact foldl_overwrite (fun k => (stageClean L rows k).2) _ (stageKeys rows) h
  · exact ⟨by with_unfolding_all decide, rfl, by with_unfolding_all decide⟩

/-- Witness for C10 at the concrete drop learner Ldrop and rows rowsD. -/
theorem c10_stored_buckets_witness :
    stageKeys rowsD ≠ [] ∧
    (fitModel Ldrop rowsD).cleaned_buckets =
      (stageClean Ldrop rowsD ((stageKeys rowsD).getLast (by decide))).2 := by
  have h : stageKeys rowsD ≠ [] := by decide
  exact ⟨h, c10_stored_buckets_from_last_stage.1 Ldrop rowsD h⟩

end TM
